import Mathlib

/-!
Shallow embedding of the Wordle-style solver in `solve.py`.

Words are lists of characters.  The Python `set` of candidate words is
modelled as a `List` (dictionary words are unique strings, so the lists we
care about are duplicate-free).  Python `defaultdict`/`dict` structures
keyed by letters are modelled as total functions from `Char`.
-/

namespace Wordle

/-- A word: an ordered sequence of characters (Python `str`). -/
abbrev Word := List Char

/-- The feedback alphabet of `class GuessState(Enum)` in `solve.py`. -/
inductive GuessState where
  | UNKNOWN
  | INCORRECT
  | MISPLACED
  | CORRECT
deriving DecidableEq

/-- `string.ascii_lowercase`: the fixed alphabet the solver tracks. -/
def ascii_lowercase : List Char :=
  ['a', 'b', 'c', 'd', 'e', 'f', 'g', 'h', 'i', 'j', 'k', 'l', 'm',
   'n', 'o', 'p', 'q', 'r', 's', 't', 'u', 'v', 'w', 'x', 'y', 'z']

/-- `find_min_max_letter_repeats(words)`: for each letter, the minimum and
maximum number of times it occurs in any single word of `words`
(`min_repeats` starts at 999 and `max_repeats` at 0, updated per word via
`Counter`). -/
def find_min_max_letter_repeats (words : List Word) : (Char → Nat) × (Char → Nat) :=
  (fun letter => words.foldl (fun acc w => min acc (w.count letter)) 999,
   fun letter => words.foldl (fun acc w => max acc (w.count letter)) 0)

/-- The mutable state of `class WordleSolver`:
`word_len`, the candidate set `words`, `correct_letters` (a `word_len`-long
array of optional fixed letters), `misplaced_letters` (letter ↦ set of
forbidden offsets, modelled as a Boolean membership function) and
`letter_counts` (letter ↦ `[min, max]` occurrence bounds). -/
structure SolverState where
  word_len : Nat
  words : List Word
  correct_letters : List (Option Char)
  misplaced_letters : Char → Nat → Bool
  letter_counts : Char → Nat × Nat

/-- `WordleSolver.__init__`, with the dictionary passed in instead of read
from disk (`read_dictionary` is an external collaborator). -/
def initSolver (dict : List Word) (word_len : Nat) : SolverState :=
  ⟨word_len, dict, List.replicate word_len none, fun _ _ => false,
   fun letter => ((find_min_max_letter_repeats dict).1 letter,
                  (find_min_max_letter_repeats dict).2 letter)⟩

/-- The per-round "correct-ish" counter of `process_feedback`:
`correct_letter_counts[letter]` is incremented once for every position of
the guess/feedback scan whose letter is `letter` and whose feedback symbol
is `MISPLACED` or `CORRECT`. -/
def correct_letter_counts (suggestion : Word) (feedback : List GuessState) (letter : Char) : Nat :=
  (suggestion.zip feedback).countP
    (fun p => p.1 == letter && (p.2 == GuessState.MISPLACED || p.2 == GuessState.CORRECT))

/-- The per-round "incorrect" counter of `process_feedback`:
`incorrect_letter_counts[letter]` is incremented once for every position
whose letter is `letter` and whose feedback symbol is `INCORRECT`. -/
def incorrect_letter_counts (suggestion : Word) (feedback : List GuessState) (letter : Char) : Nat :=
  (suggestion.zip feedback).countP
    (fun p => p.1 == letter && p.2 == GuessState.INCORRECT)

/-- `self.misplaced_letters[letter].add(offset)`. -/
def addForbidden (mis : Char → Nat → Bool) (letter : Char) (offset : Nat) :
    Char → Nat → Bool :=
  fun c i => (c == letter && i == offset) || mis c i

/-- The positional part of the `for offset, (letter, result) in
enumerate(zip(suggestion, feedback))` scan of `process_feedback`: the
updates to `misplaced_letters` (on `INCORRECT` and `MISPLACED`) and to
`correct_letters` (on `CORRECT`).  The per-round counters of the same loop
are pure tallies and are given separately by `correct_letter_counts` /
`incorrect_letter_counts`. -/
def scan_positions (offset : Nat) (mis : Char → Nat → Bool) (cl : List (Option Char)) :
    List (Char × GuessState) → (Char → Nat → Bool) × List (Option Char)
  | [] => (mis, cl)
  | (letter, result) :: rest =>
    match result with
    | GuessState.UNKNOWN => scan_positions (offset + 1) mis cl rest
    | GuessState.INCORRECT => scan_positions (offset + 1) (addForbidden mis letter offset) cl rest
    | GuessState.MISPLACED => scan_positions (offset + 1) (addForbidden mis letter offset) cl rest
    | GuessState.CORRECT => scan_positions (offset + 1) mis (cl.set offset (some letter)) rest

/-- `WordleSolver.process_feedback(suggestion, feedback)`: scan all
positions, then apply the accumulated counters to `letter_counts` once per
letter — `min` is raised to the correct-ish count (for letters whose
counter is nonzero, i.e. the keys present in the `defaultdict`), `max` is
lowered to `suggestion.count(letter) - incorrect count` (for letters whose
incorrect counter is nonzero). -/
def process_feedback (s : SolverState) (suggestion : Word) (feedback : List GuessState) :
    SolverState :=
  let scanned := scan_positions 0 s.misplaced_letters s.correct_letters (suggestion.zip feedback)
  { s with
    misplaced_letters := scanned.1
    correct_letters := scanned.2
    letter_counts := fun letter =>
      let old := s.letter_counts letter
      let cc := correct_letter_counts suggestion feedback letter
      let ic := incorrect_letter_counts suggestion feedback letter
      (if cc ≠ 0 then max cc old.1 else old.1,
       if ic ≠ 0 then min (suggestion.count letter - ic) old.2 else old.2) }

/-- The membership test of `filter_words`: a word survives iff none of the
four `any(...)`/`continue` guards fires.  The third guard iterates the
distinct letters of the word (`Counter(word).items()`); iterating all
occurrences has the same truth value. -/
def keepWord (s : SolverState) (word : Word) : Bool :=
  !(s.correct_letters.enum.any (fun p =>
      match p.2 with
      | some letter => !(word[p.1]? == some letter)
      | none => false)) &&
  !(word.enum.any (fun p => s.misplaced_letters p.2 p.1)) &&
  !(word.any (fun letter =>
      !(decide ((s.letter_counts letter).1 ≤ word.count letter) &&
        decide (word.count letter ≤ (s.letter_counts letter).2)))) &&
  !(ascii_lowercase.any (fun letter =>
      !(decide ((s.letter_counts letter).1 ≤ word.count letter) &&
        decide (word.count letter ≤ (s.letter_counts letter).2))))

/-- `WordleSolver.filter_words()`: rebuild the candidate set from the words
passing all four guards. -/
def filter_words (s : SolverState) : SolverState :=
  { s with words := s.words.filter (keepWord s) }

/-- The positional tallies built by `letter_word_counts`:
`counts[position][letter]` = number of words carrying `letter` at
`position` (each word contributes to each of its own positions). -/
def position_counts (words : List Word) (len : Nat) : List (Char → Nat) :=
  (List.range len).map (fun position letter =>
    words.countP (fun w => w[position]? == some letter))

/-- `letter_word_counts(words)`: pops an arbitrary element to learn the
word length, re-adds it (`set.add` is a no-op when the element is already
present), then tallies positional letter counts.  The result pairs the
word set after the pop/re-add with the tallies.  Python raises `KeyError`
when popping an empty set; that branch is unreachable in the solver (the
loop guard guarantees a non-empty set) and is modelled as `([], [])`. -/
def letter_word_counts : List Word → List Word × List (Char → Nat)
  | [] => ([], [])
  | w :: rest =>
    let words := if w ∈ rest then rest else w :: rest
    (words, position_counts words w.length)

/-- The score `sum(counts[position][letter] for position, letter in
enumerate(word))` of `find_suggestions`. -/
def suggestion_score (counts : List (Char → Nat)) (word : Word) : Nat :=
  word.enum.foldl (fun acc p =>
    acc + (match counts[p.1]? with
           | some f => f p.2
           | none => 0)) 0

/-- Python string comparison, used by `sorted` on `(score, word)` tuples. -/
def wordLe : Word → Word → Bool
  | [], _ => true
  | _ :: _, [] => false
  | c :: cs, d :: ds => if c = d then wordLe cs ds else decide (c < d)

/-- `sorted(scores, reverse=True)` orders `(score, word)` tuples largest
first (score first, then string order).  `scoreGe a b` holds when `a`
sorts no later than `b`. -/
def scoreGe (a b : Nat × Word) : Bool :=
  decide (b.1 < a.1) || (a.1 == b.1 && wordLe b.2 a.2)

/-- Insertion step of the sort used to model Python `sorted`. -/
def insertSorted (le : α → α → Bool) (a : α) : List α → List α
  | [] => [a]
  | b :: bs => if le a b then a :: b :: bs else b :: insertSorted le a bs

/-- Sort used to model Python `sorted`: on the duplicate-free tuple lists
produced by `find_suggestions` this yields exactly Python's output. -/
def sortBy (le : α → α → Bool) : List α → List α
  | [] => []
  | a :: as => insertSorted le a (sortBy le as)

/-- `find_suggestions(words, num_suggestions)`: score every word of the
(popped-and-restored) set and return the `num_suggestions` best
`(score, word)` pairs, paired with the word set after `letter_word_counts`
touched it. -/
def find_suggestions (words : List Word) (num_suggestions : Nat) :
    List Word × List (Nat × Word) :=
  let r := letter_word_counts words
  (r.1,
   (sortBy scoreGe (r.1.map (fun word => (suggestion_score r.2 word, word)))).take
     num_suggestions)

/-- The bound re-tightening at the end of each `run_until_solved`
iteration: each letter's bounds are intersected with the min/max repeat
statistics recomputed over the freshly filtered candidate set. -/
def retighten_counts (words : List Word) (lc : Char → Nat × Nat) : Char → Nat × Nat :=
  fun letter => (max (lc letter).1 ((find_min_max_letter_repeats words).1 letter),
                 min (lc letter).2 ((find_min_max_letter_repeats words).2 letter))

/-- One accepted round of the solve loop: `process_feedback`, then
`filter_words`, then re-tighten `letter_counts` against the new set. -/
def solve_round (s : SolverState) (guess : Word) (feedback : List GuessState) : SolverState :=
  let s2 := filter_words (process_feedback s guess feedback)
  { s2 with letter_counts := retighten_counts s2.words s2.letter_counts }

/-- Outcome of `run_until_solved`: the returned word, the `None` return
("no solution"), the `Exception("No suggestions accepted")`, or running
out of modelling fuel (the Python loop has no built-in bound). -/
inductive RunResult where
  | solved (w : Word)
  | exhausted
  | noSuggestionAccepted
  | outOfFuel
deriving DecidableEq

/-- The `for suggestion in ...` offer loop: present suggestions in order
until the provider accepts one with feedback (`none` models the user
skipping via `SkipWordError`). -/
def offer_loop (provider : Word → Option (List GuessState)) :
    List Word → Option (Word × List GuessState)
  | [] => none
  | w :: rest =>
    match provider w with
    | some fb => some (w, fb)
    | none => offer_loop provider rest

/-- The code after the `while` loop: `if len(self.words) == 1: return
self.words.pop()` else `return None`. -/
def terminal_result (s : SolverState) : RunResult :=
  match s.words with
  | [w] => RunResult.solved w
  | _ => RunResult.exhausted

/-- `WordleSolver.run_until_solved`, with the interactive prompt replaced
by a provider mapping (round number, offered suggestion) to an optional
feedback sequence, and an explicit fuel bound on loop iterations. -/
def run_until_solved (provider : Nat → Word → Option (List GuessState)) :
    Nat → Nat → SolverState → RunResult
  | 0, _, s =>
    if s.words.length > 1 then RunResult.outOfFuel else terminal_result s
  | fuel + 1, round, s =>
    if s.words.length > 1 then
      let r := find_suggestions s.words 10
      let s1 : SolverState := { s with words := r.1 }
      match offer_loop (provider round) (r.2.map Prod.snd) with
      | none => RunResult.noSuggestionAccepted
      | some (g, fb) => run_until_solved provider fuel (round + 1) (solve_round s1 g fb)
    else terminal_result s

/-!
Feedback generation "under the rules of the puzzle": exact matches are
`CORRECT`; the remaining guess letters are marked `MISPLACED` left to
right while unmatched copies of the letter remain in the answer, and
`INCORRECT` once the budget is exhausted.  This is not part of
`solve.py` (the judge is external); it is the standard rule set the
soundness claim quantifies over.
-/

/-- Decrement a letter budget. -/
def decrBudget (rem : Char → Nat) (letter : Char) : Char → Nat :=
  fun c => if c = letter then rem letter - 1 else rem c

/-- Mark a list of (guess letter, answer letter) pairs given a budget of
unmatched answer letters. -/
def mark_pairs (rem : Char → Nat) : List (Char × Char) → List GuessState
  | [] => []
  | (g, a) :: rest =>
    if g = a then GuessState.CORRECT :: mark_pairs rem rest
    else if rem g > 0 then GuessState.MISPLACED :: mark_pairs (decrBudget rem g) rest
    else GuessState.INCORRECT :: mark_pairs rem rest

/-- For each letter: how many unmatched (non-exact-match) positions of the
answer carry it.  This is the misplaced-marking budget. -/
def unmatchedCount (pairs : List (Char × Char)) (letter : Char) : Nat :=
  (pairs.filter (fun p => p.1 ≠ p.2)).countP (fun p => p.2 == letter)

/-- The feedback a rules-following judge produces for `guess` against the
true answer `answer`. -/
def wordleFeedback (guess answer : Word) : List GuessState :=
  mark_pairs (unmatchedCount (guess.zip answer)) (guess.zip answer)

/-!
Spec-side formulations of the four retention conditions of the filter
(§4.3 of the spec), written from the spec's words, to be compared with
`keepWord` which is translated from the code.
-/

/-- Spec condition 1: the word agrees with every set entry of
`correct_letters`. -/
def SpecCorrect (s : SolverState) (w : Word) : Prop :=
  ∀ (i : Nat) (letter : Char),
    s.correct_letters[i]? = some (some letter) → w[i]? = some letter

/-- Spec condition 2: no position of the word carries a letter forbidden at
that position. -/
def SpecAllowedPositions (s : SolverState) (w : Word) : Prop :=
  ∀ (i : Nat) (letter : Char), w[i]? = some letter → s.misplaced_letters letter i = false

/-- Spec condition 3: every letter occurring in the word has an occurrence
count within that letter's bounds. -/
def SpecWordBounds (s : SolverState) (w : Word) : Prop :=
  ∀ letter ∈ w, (s.letter_counts letter).1 ≤ w.count letter ∧
    w.count letter ≤ (s.letter_counts letter).2

/-- Spec condition 4: every alphabet letter (those absent from the word
counting 0) satisfies the same bound check. -/
def SpecAlphabetBounds (s : SolverState) (w : Word) : Prop :=
  ∀ letter ∈ ascii_lowercase, (s.letter_counts letter).1 ≤ w.count letter ∧
    w.count letter ≤ (s.letter_counts letter).2

/-- Spec-side per-round "correct-ish" counter: over all positions `i` of
the round, count those whose guess letter is `letter` and whose feedback
symbol is `Misplaced` or `Correct`. -/
def positional_correctish (guess : Word) (feedback : List GuessState) (letter : Char) : Nat :=
  (List.range guess.length).countP (fun i =>
    guess[i]? == some letter &&
    (feedback[i]? == some GuessState.MISPLACED || feedback[i]? == some GuessState.CORRECT))

/-- Spec-side per-round "incorrect" counter: over all positions `i` of the
round, count those whose guess letter is `letter` and whose feedback
symbol is `Incorrect`. -/
def positional_incorrect (guess : Word) (feedback : List GuessState) (letter : Char) : Nat :=
  (List.range guess.length).countP (fun i =>
    guess[i]? == some letter && feedback[i]? == some GuessState.INCORRECT)

/-- All four retention conditions, i.e. consistency of a word with the
whole constraint store. -/
def SpecConsistent (s : SolverState) (w : Word) : Prop :=
  SpecCorrect s w ∧ SpecAllowedPositions s w ∧ SpecWordBounds s w ∧ SpecAlphabetBounds s w

/-- Playing a sequence of rounds against a fixed true answer with
rules-following feedback: each round runs `process_feedback` followed by
`filter_words` (the two operations named by the soundness property). -/
def playRounds (answer : Word) (s : SolverState) : List Word → SolverState
  | [] => s
  | g :: gs => playRounds answer (filter_words (process_feedback s g (wordleFeedback g answer))) gs

/-!
## Helper lemmas
-/

/-- Membership in the filtered candidate set. -/
theorem mem_filter_words {s : SolverState} {w : Word} :
    w ∈ (filter_words s).words ↔ w ∈ s.words ∧ keepWord s w = true :=
  List.mem_filter

/-- The first guard of `filter_words` is exactly spec condition 1. -/
theorem keep1_iff (s : SolverState) (w : Word) :
    (s.correct_letters.enum.any (fun p =>
      match p.2 with
      | some letter => !(w[p.1]? == some letter)
      | none => false)) = false ↔ SpecCorrect s w := by
  rw [List.any_eq_false]
  constructor
  · intro h i letter hi
    have := h (i, some letter) (List.mk_mem_enum_iff_getElem?.2 hi)
    simpa using this
  · rintro h ⟨i, ol⟩ hmem
    rcases ol with _ | letter
    · simp
    · have := h i letter (List.mk_mem_enum_iff_getElem?.1 hmem)
      simpa using this

/-- The second guard of `filter_words` is exactly spec condition 2. -/
theorem keep2_iff (s : SolverState) (w : Word) :
    (w.enum.any (fun p => s.misplaced_letters p.2 p.1)) = false ↔
      SpecAllowedPositions s w := by
  rw [List.any_eq_false]
  constructor
  · intro h i letter hw
    have := h (i, letter) (List.mk_mem_enum_iff_getElem?.2 hw)
    simpa using this
  · rintro h ⟨i, letter⟩ hmem
    have := h i letter (List.mk_mem_enum_iff_getElem?.1 hmem)
    simpa using this

/-- The third guard of `filter_words` is exactly spec condition 3. -/
theorem keep3_iff (s : SolverState) (w : Word) :
    (w.any (fun letter =>
      !(decide ((s.letter_counts letter).1 ≤ w.count letter) &&
        decide (w.count letter ≤ (s.letter_counts letter).2)))) = false ↔
      SpecWordBounds s w := by
  rw [List.any_eq_false]
  unfold SpecWordBounds
  constructor
  · intro h letter hl
    have := h letter hl
    simpa using this
  · intro h letter hl
    have := h letter hl
    simpa using this

/-- The fourth guard of `filter_words` is exactly spec condition 4. -/
theorem keep4_iff (s : SolverState) (w : Word) :
    (ascii_lowercase.any (fun letter =>
      !(decide ((s.letter_counts letter).1 ≤ w.count letter) &&
        decide (w.count letter ≤ (s.letter_counts letter).2)))) = false ↔
      SpecAlphabetBounds s w := by
  rw [List.any_eq_false]
  unfold SpecAlphabetBounds
  constructor
  · intro h letter hl
    have := h letter hl
    simpa using this
  · intro h letter hl
    have := h letter hl
    simpa using this

/-- The code's `keepWord` test is exactly the conjunction of the spec's
four retention conditions. -/
theorem keepWord_iff_specConsistent (s : SolverState) (w : Word) :
    keepWord s w = true ↔ SpecConsistent s w := by
  unfold keepWord SpecConsistent
  simp only [Bool.and_eq_true, Bool.not_eq_true']
  rw [keep1_iff, keep2_iff, keep3_iff, keep4_iff]
  tauto

/-- `process_feedback` leaves the candidate set untouched. -/
theorem process_feedback_words (s : SolverState) (g : Word) (fb : List GuessState) :
    (process_feedback s g fb).words = s.words := rfl

/-- The `letter_counts` produced by `process_feedback`, as an equation. -/
theorem process_feedback_letter_counts (s : SolverState) (g : Word) (fb : List GuessState)
    (letter : Char) :
    (process_feedback s g fb).letter_counts letter =
      (if correct_letter_counts g fb letter ≠ 0
       then max (correct_letter_counts g fb letter) (s.letter_counts letter).1
       else (s.letter_counts letter).1,
       if incorrect_letter_counts g fb letter ≠ 0
       then min (g.count letter - incorrect_letter_counts g fb letter) (s.letter_counts letter).2
       else (s.letter_counts letter).2) := rfl

/-- The positional state produced by `process_feedback`, as equations. -/
theorem process_feedback_positional (s : SolverState) (g : Word) (fb : List GuessState) :
    (process_feedback s g fb).misplaced_letters =
      (scan_positions 0 s.misplaced_letters s.correct_letters (g.zip fb)).1 ∧
    (process_feedback s g fb).correct_letters =
      (scan_positions 0 s.misplaced_letters s.correct_letters (g.zip fb)).2 :=
  ⟨rfl, rfl⟩

/-- `filter_words` changes only the candidate set. -/
theorem filter_words_fields (s : SolverState) :
    (filter_words s).word_len = s.word_len ∧
    (filter_words s).correct_letters = s.correct_letters ∧
    (filter_words s).misplaced_letters = s.misplaced_letters ∧
    (filter_words s).letter_counts = s.letter_counts :=
  ⟨rfl, rfl, rfl, rfl⟩

/-- `countP` only depends on the predicate's values on the list. -/
theorem countP_congr_mem {α : Type} {l : List α} {p q : α → Bool}
    (h : ∀ a ∈ l, p a = q a) : l.countP p = l.countP q := by
  induction l with
  | nil => rfl
  | cons a l ih =>
    rw [List.countP_cons, List.countP_cons, h a (List.mem_cons_self a l),
      ih (fun b hb => h b (List.mem_cons_of_mem a hb))]

/-- Counting over the positional zip of two equal-length lists equals
counting over their index range. -/
theorem countP_zip_eq_range {α β : Type} (l1 : List α) (l2 : List β)
    (p : α → β → Bool) (h : l2.length = l1.length) :
    (l1.zip l2).countP (fun q => p q.1 q.2) =
      (List.range l1.length).countP (fun i =>
        match l1[i]?, l2[i]? with
        | some a, some b => p a b
        | _, _ => false) := by
  induction l1 generalizing l2 with
  | nil => simp
  | cons a l1 ih =>
    cases l2 with
    | nil => simp at h
    | cons b l2 =>
      have h' : l2.length = l1.length := by simpa using h
      rw [List.zip_cons_cons, List.countP_cons, List.length_cons,
        List.range_succ_eq_map, List.countP_cons, List.countP_map, ih l2 h']
      have hstep : ∀ i ∈ List.range l1.length,
          ((fun i => match (a :: l1)[i]?, (b :: l2)[i]? with
            | some a, some b => p a b
            | _, _ => false) ∘ Nat.succ) i =
          (fun i => match l1[i]?, l2[i]? with
            | some a, some b => p a b
            | _, _ => false) i := by
        intro i _
        simp only [Function.comp_apply, List.getElem?_cons_succ]
      rw [countP_congr_mem hstep]
      simp only [List.getElem?_cons_zero]

/-- Positional lookup in a zip of two lists. -/
theorem zip_getElem?_iff {α β : Type} (l1 : List α) (l2 : List β) :
    ∀ (k : Nat) (a : α) (b : β),
      (l1.zip l2)[k]? = some (a, b) ↔ l1[k]? = some a ∧ l2[k]? = some b := by
  induction l1 generalizing l2 with
  | nil => intro k a b; simp
  | cons x l1 ih =>
    cases l2 with
    | nil => intro k a b; simp
    | cons y l2 =>
      intro k a b
      cases k with
      | zero => simp [List.zip_cons_cons, Prod.ext_iff, And.comm]
      | succ k => simpa [List.zip_cons_cons] using ih l2 k a b

/-- The correct-letters half of the positional scan never unsets an entry:
each position's entry is either untouched or holds some letter. -/
theorem scan_positions_not_unset (ps : List (Char × GuessState)) :
    ∀ (off : Nat) (mis : Char → Nat → Bool) (cl : List (Option Char)) (j : Nat),
      (scan_positions off mis cl ps).2[j]? = cl[j]? ∨
        ∃ c : Char, (scan_positions off mis cl ps).2[j]? = some (some c) := by
  induction ps with
  | nil => intro off mis cl j; exact Or.inl rfl
  | cons p rest ih =>
    intro off mis cl j
    obtain ⟨letter, result⟩ := p
    cases result with
    | UNKNOWN => exact ih (off + 1) mis cl j
    | INCORRECT => exact ih (off + 1) _ cl j
    | MISPLACED => exact ih (off + 1) _ cl j
    | CORRECT =>
      show (scan_positions (off + 1) mis (cl.set off (some letter)) rest).2[j]? = cl[j]? ∨
        ∃ c : Char,
          (scan_positions (off + 1) mis (cl.set off (some letter)) rest).2[j]? = some (some c)
      rcases ih (off + 1) mis (cl.set off (some letter)) j with h | h
      · rw [h, List.getElem?_set]
        by_cases hoff : off = j
        · subst hoff
          by_cases hlt : off < cl.length
          · exact Or.inr ⟨letter, by rw [if_pos rfl, if_pos hlt]⟩
          · left
            rw [if_pos rfl, if_neg hlt, eq_comm]
            exact List.getElem?_eq_none (by omega)
        · left
          rw [if_neg hoff]
      · exact Or.inr h

/-- If every already-set entry matches `answer` and every `CORRECT` pair of
the scanned round carries `answer`'s letter at its position, then after the
scan every set entry still matches `answer`. -/
theorem scan_positions_correct_sound (answer : Word) (ps : List (Char × GuessState)) :
    ∀ (off : Nat) (mis : Char → Nat → Bool) (cl : List (Option Char)),
      (∀ (j : Nat) (l : Char), cl[j]? = some (some l) → answer[j]? = some l) →
      (∀ (k : Nat) (c : Char), ps[k]? = some (c, GuessState.CORRECT) →
        answer[off + k]? = some c) →
      ∀ (j : Nat) (l : Char),
        (scan_positions off mis cl ps).2[j]? = some (some l) → answer[j]? = some l := by
  induction ps with
  | nil => intro off mis cl hcl _ j l hj; exact hcl j l hj
  | cons p rest ih =>
    intro off mis cl hcl hps j l hj
    obtain ⟨letter, result⟩ := p
    have hshift : ∀ (k : Nat) (c : Char), rest[k]? = some (c, GuessState.CORRECT) →
        answer[off + 1 + k]? = some c := by
      intro k c hk
      have := hps (k + 1) c (by simpa using hk)
      rwa [show off + (k + 1) = off + 1 + k by omega] at this
    cases result with
    | UNKNOWN => exact ih (off + 1) mis cl hcl hshift j l hj
    | INCORRECT => exact ih (off + 1) _ cl hcl hshift j l hj
    | MISPLACED => exact ih (off + 1) _ cl hcl hshift j l hj
    | CORRECT =>
      refine ih (off + 1) mis (cl.set off (some letter)) ?_ hshift j l hj
      intro j' l' hj'
      rw [List.getElem?_set] at hj'
      by_cases hoff : off = j'
      · rw [if_pos hoff] at hj'
        by_cases hlt : off < cl.length
        · rw [if_pos hlt] at hj'
          have hl' : l' = letter := by
            injection hj' with h1
            injection h1 with h2
            exact h2.symm
          subst hl'
          subst hoff
          simpa using hps 0 l' (by simp)
        · rw [if_neg hlt] at hj'
          cases hj'
      · rw [if_neg hoff] at hj'
        exact hcl j' l' hj'

/-- If no position of `answer` is forbidden for its own letter and every
`INCORRECT`/`MISPLACED` pair of the scanned round differs from `answer` at
its position, then after the scan no position of `answer` is forbidden for
its own letter. -/
theorem scan_positions_mis_sound (answer : Word) (ps : List (Char × GuessState)) :
    ∀ (off : Nat) (mis : Char → Nat → Bool) (cl : List (Option Char)),
      (∀ (j : Nat) (c : Char), answer[j]? = some c → mis c j = false) →
      (∀ (k : Nat) (c : Char),
        (ps[k]? = some (c, GuessState.INCORRECT) ∨
         ps[k]? = some (c, GuessState.MISPLACED)) →
        answer[off + k]? ≠ some c) →
      ∀ (j : Nat) (c : Char), answer[j]? = some c →
        (scan_positions off mis cl ps).1 c j = false := by
  induction ps with
  | nil => intro off mis cl hmis _ j c hj; exact hmis j c hj
  | cons p rest ih =>
    intro off mis cl hmis hps j c hj
    obtain ⟨letter, result⟩ := p
    have hshift : ∀ (k : Nat) (c' : Char),
        (rest[k]? = some (c', GuessState.INCORRECT) ∨
         rest[k]? = some (c', GuessState.MISPLACED)) →
        answer[off + 1 + k]? ≠ some c' := by
      intro k c' hk
      have := hps (k + 1) c' (by

        rcases hk with hk | hk
        · exact Or.inl (by simpa using hk)
        · exact Or.inr (by simpa using hk))
      rwa [show off + (k + 1) = off + 1 + k by omega] at this
    have hadd : ∀ (hhead : answer[off]? ≠ some letter),
        ∀ (j' : Nat) (c' : Char), answer[j']? = some c' →
          addForbidden mis letter off c' j' = false := by
      intro hhead j' c' hj'
      unfold addForbidden
      by_cases hc : c' = letter
      · by_cases hjo : j' = off
        · subst hc
          subst hjo
          exact absurd hj' hhead
        · simp [hjo, hmis j' c' hj']
      · simp [hc, hmis j' c' hj']
    cases result with
    | UNKNOWN => exact ih (off + 1) mis cl hmis hshift j c hj
    | INCORRECT =>
      refine ih (off + 1) _ cl (hadd ?_) hshift j c hj
      simpa using hps 0 letter (Or.inl (by simp))
    | MISPLACED =>
      refine ih (off + 1) _ cl (hadd ?_) hshift j c hj
      simpa using hps 0 letter (Or.inr (by simp))
    | CORRECT => exact ih (off + 1) mis _ hmis hshift j c hj

/-- Marking preserves the number of positions. -/
theorem mark_pairs_length (ps : List (Char × Char)) :
    ∀ rem : Char → Nat, (mark_pairs rem ps).length = ps.length := by
  induction ps with
  | nil => intro rem; rfl
  | cons p rest ih =>
    intro rem
    obtain ⟨g, a⟩ := p
    unfold mark_pairs
    split
    · simpa using ih rem
    · split <;> simp [ih]

/-- A marked position reads `CORRECT` exactly when its guess and answer
letters agree. -/
theorem mark_pairs_correct_iff (ps : List (Char × Char)) :
    ∀ (rem : Char → Nat) (k : Nat) (g a : Char) (r : GuessState),
      ps[k]? = some (g, a) → (mark_pairs rem ps)[k]? = some r →
      (r = GuessState.CORRECT ↔ g = a) := by
  induction ps with
  | nil => intro rem k g a r h _; simp at h
  | cons p rest ih =>
    intro rem k g a r hp hr
    obtain ⟨g0, a0⟩ := p
    unfold mark_pairs at hr
    cases k with
    | zero =>
      have hg : g0 = g ∧ a0 = a := by
        have := hp
        simp [Prod.ext_iff] at this
        exact this
      rw [hg.1, hg.2] at hr
      by_cases hga : g = a
      · rw [if_pos hga] at hr
        simp at hr
        simp [hr, hga]
      · rw [if_neg hga] at hr
        split at hr <;> simp at hr <;> simp [← hr, hga]
    | succ k =>
      have hp' : rest[k]? = some (g, a) := by simpa using hp
      split at hr
      · exact ih rem k g a r hp' (by simpa using hr)
      · split at hr
        · exact ih _ k g a r hp' (by simpa using hr)
        · exact ih rem k g a r hp' (by simpa using hr)

/-- Genuineness of rules-following feedback, `CORRECT` direction: a
position marked `CORRECT` carries the answer's letter. -/
theorem wordleFeedback_correct_sound (guess answer : Word) (k : Nat) (c : Char)
    (h : (guess.zip (wordleFeedback guess answer))[k]? = some (c, GuessState.CORRECT)) :
    answer[k]? = some c := by
  rw [zip_getElem?_iff] at h
  obtain ⟨hg, hf⟩ := h
  have hk : k < (wordleFeedback guess answer).length := by
    by_contra hk'
    rw [List.getElem?_eq_none (by omega)] at hf
    cases hf
  rw [wordleFeedback, mark_pairs_length] at hk
  obtain ⟨⟨g0, a0⟩, hp⟩ : ∃ p, (guess.zip answer)[k]? = some p :=
    ⟨_, List.getElem?_eq_getElem hk⟩
  have hzip := (zip_getElem?_iff guess answer k g0 a0).1 hp
  have hga : g0 = a0 :=
    (mark_pairs_correct_iff (guess.zip answer) (unmatchedCount (guess.zip answer)) k g0 a0
      GuessState.CORRECT hp hf).1 rfl
  have hgc : g0 = c := by
    have := hzip.1
    rw [hg] at this
    injection this with h'
    exact h'.symm
  rw [hzip.2, ← hga, hgc]

/-- Genuineness of rules-following feedback, non-`CORRECT` direction: a
position marked `INCORRECT` or `MISPLACED` does not carry the answer's
letter. -/
theorem wordleFeedback_not_correct_sound (guess answer : Word) (k : Nat) (c : Char)
    (h : (guess.zip (wordleFeedback guess answer))[k]? = some (c, GuessState.INCORRECT) ∨
         (guess.zip (wordleFeedback guess answer))[k]? = some (c, GuessState.MISPLACED)) :
    answer[k]? ≠ some c := by
  have hmain : ∀ r : GuessState, r ≠ GuessState.CORRECT →
      (guess.zip (wordleFeedback guess answer))[k]? = some (c, r) →
      answer[k]? ≠ some c := by
    intro r hrc hkr
    rw [zip_getElem?_iff] at hkr
    obtain ⟨hg, hf⟩ := hkr
    have hk : k < (wordleFeedback guess answer).length := by
      by_contra hk'
      rw [List.getElem?_eq_none (by omega)] at hf
      cases hf
    rw [wordleFeedback, mark_pairs_length] at hk
    obtain ⟨⟨g0, a0⟩, hp⟩ : ∃ p, (guess.zip answer)[k]? = some p :=
      ⟨_, List.getElem?_eq_getElem hk⟩
    have hzip := (zip_getElem?_iff guess answer k g0 a0).1 hp
    have hga : g0 ≠ a0 := by
      intro heq
      exact hrc ((mark_pairs_correct_iff (guess.zip answer)
        (unmatchedCount (guess.zip answer)) k g0 a0 r hp hf).2 heq)
    have hgc : g0 = c := by
      have := hzip.1
      rw [hg] at this
      injection this with h'
      exact h'.symm
    rw [hzip.2]
    intro hcontra
    injection hcontra with h'
    exact hga (by rw [hgc, h'])
  rcases h with h | h
  · exact hmain GuessState.INCORRECT (by simp) h
  · exact hmain GuessState.MISPLACED (by simp) h

/-- Counting a disjunction of mutually exclusive predicates splits into a
sum. -/
theorem countP_or_disjoint {α : Type} (l : List α) (p q : α → Bool)
    (h : ∀ x ∈ l, ¬(p x = true ∧ q x = true)) :
    l.countP (fun x => p x || q x) = l.countP p + l.countP q := by
  induction l with
  | nil => rfl
  | cons a l ih =>
    rw [List.countP_cons, List.countP_cons, List.countP_cons,
      ih (fun x hx => h x (List.mem_cons_of_mem _ hx))]
    have ha := h a (List.mem_cons_self _ _)
    by_cases hp : p a = true <;> by_cases hq : q a = true <;>
      simp [hp, hq] at ha ⊢ <;> omega

/-- Counting splits along any Boolean condition. -/
theorem countP_split_by {α : Type} (l : List α) (p q : α → Bool) :
    l.countP p = l.countP (fun x => p x && q x) + l.countP (fun x => p x && !q x) := by
  induction l with
  | nil => rfl
  | cons a l ih =>
    rw [List.countP_cons, List.countP_cons, List.countP_cons, ih]
    by_cases hp : p a = true <;> by_cases hq : q a = true <;> simp [hp, hq] <;> omega

/-- `Char` Boolean equality is `decide` of propositional equality. -/
theorem char_beq_eq_decide (c d : Char) : (c == d) = decide (c = d) := by
  by_cases h : c = d <;> simp [h]

/-- Greedy misplaced-marking never hands out more `MISPLACED` marks for a
letter than the budget allows. -/
theorem mis_count_le_budget (ps : List (Char × Char)) :
    ∀ (rem : Char → Nat) (c : Char),
      (ps.zip (mark_pairs rem ps)).countP
        (fun q => q.1.1 == c && q.2 == GuessState.MISPLACED) ≤ rem c := by
  induction ps with
  | nil => intro rem c; simp [mark_pairs]
  | cons p rest ih =>
    intro rem c
    obtain ⟨g, a⟩ := p
    unfold mark_pairs
    by_cases hga : g = a
    · rw [if_pos hga, List.zip_cons_cons, List.countP_cons]
      simpa using ih rem c
    · rw [if_neg hga]
      by_cases hrem : rem g > 0
      · rw [if_pos hrem, List.zip_cons_cons, List.countP_cons]
        by_cases hgc : g = c
        · subst hgc
          have hih := ih (decrBudget rem g) g
          rw [show decrBudget rem g g = rem g - 1 by simp [decrBudget]] at hih
          simp only [beq_self_eq_true, Bool.and_self, if_pos]
          simp
          omega
        · have hih := ih (decrBudget rem g) c
          rw [show decrBudget rem g c = rem c by simp [decrBudget, Ne.symm hgc]] at hih
          simpa [hgc] using hih
      · rw [if_neg hrem, List.zip_cons_cons, List.countP_cons]
        simpa using ih rem c

/-- Once the budget for a letter is exhausted (some occurrence of it is
marked `INCORRECT`), the whole budget was spent on `MISPLACED` marks. -/
theorem budget_le_mis_of_inc (ps : List (Char × Char)) :
    ∀ (rem : Char → Nat) (c : Char),
      0 < (ps.zip (mark_pairs rem ps)).countP
        (fun q => q.1.1 == c && q.2 == GuessState.INCORRECT) →
      rem c ≤ (ps.zip (mark_pairs rem ps)).countP
        (fun q => q.1.1 == c && q.2 == GuessState.MISPLACED) := by
  induction ps with
  | nil => intro rem c h; simp [mark_pairs] at h
  | cons p rest ih =>
    intro rem c h
    obtain ⟨g, a⟩ := p
    unfold mark_pairs at h ⊢
    by_cases hga : g = a
    · rw [if_pos hga, List.zip_cons_cons, List.countP_cons] at h ⊢
      have h' : 0 < (rest.zip (mark_pairs rem rest)).countP
          (fun q => q.1.1 == c && q.2 == GuessState.INCORRECT) := by
        simpa using h
      simpa using ih rem c h'
    · rw [if_neg hga] at h ⊢
      by_cases hrem : rem g > 0
      · rw [if_pos hrem, List.zip_cons_cons, List.countP_cons] at h ⊢
        have h' : 0 < (rest.zip (mark_pairs (decrBudget rem g) rest)).countP
            (fun q => q.1.1 == c && q.2 == GuessState.INCORRECT) := by
          simpa using h
        have hih := ih (decrBudget rem g) c h'
        by_cases hgc : g = c
        · subst hgc
          rw [show decrBudget rem g g = rem g - 1 by simp [decrBudget]] at hih
          simp only [beq_self_eq_true, Bool.and_self]
          simp
          omega
        · rw [show decrBudget rem g c = rem c by simp [decrBudget, Ne.symm hgc]] at hih
          simpa [hgc] using hih
      · rw [if_neg hrem, List.zip_cons_cons, List.countP_cons] at h ⊢
        by_cases hgc : g = c
        · subst hgc
          have : rem g = 0 := by omega
          rw [this]
          exact Nat.zero_le _
        · have h' : 0 < (rest.zip (mark_pairs rem rest)).countP
              (fun q => q.1.1 == c && q.2 == GuessState.INCORRECT) := by
            simpa [hgc] using h
          simpa using ih rem c h'

/-- `CORRECT`-tagged positions of a letter are exactly the exact-match
positions of that letter, whatever the budget. -/
theorem cor_count_eq_matched (ps : List (Char × Char)) :
    ∀ (rem : Char → Nat) (c : Char),
      (ps.zip (mark_pairs rem ps)).countP
        (fun q => q.1.1 == c && q.2 == GuessState.CORRECT) =
      ps.countP (fun p => p.1 == c && p.1 == p.2) := by
  induction ps with
  | nil => intro rem c; simp [mark_pairs]
  | cons p rest ih =>
    intro rem c
    obtain ⟨g, a⟩ := p
    unfold mark_pairs
    by_cases hga : g = a
    · subst hga
      rw [if_pos rfl, List.zip_cons_cons, List.countP_cons, List.countP_cons, ih rem c]
      simp
    · rw [if_neg hga]
      by_cases hrem : rem g > 0
      · rw [if_pos hrem, List.zip_cons_cons, List.countP_cons, List.countP_cons,
          ih (decrBudget rem g) c]
        simp [hga]
      · rw [if_neg hrem, List.zip_cons_cons, List.countP_cons, List.countP_cons, ih rem c]
        simp [hga]

/-- Every position of a letter receives exactly one of the three marks. -/
theorem fst_count_eq_tag_sum (ps : List (Char × Char)) :
    ∀ (rem : Char → Nat) (c : Char),
      ps.countP (fun p => p.1 == c) =
        (ps.zip (mark_pairs rem ps)).countP
          (fun q => q.1.1 == c && q.2 == GuessState.CORRECT) +
        (ps.zip (mark_pairs rem ps)).countP
          (fun q => q.1.1 == c && q.2 == GuessState.MISPLACED) +
        (ps.zip (mark_pairs rem ps)).countP
          (fun q => q.1.1 == c && q.2 == GuessState.INCORRECT) := by
  induction ps with
  | nil => intro rem c; simp [mark_pairs]
  | cons p rest ih =>
    intro rem c
    obtain ⟨g, a⟩ := p
    unfold mark_pairs
    by_cases hga : g = a
    · rw [if_pos hga]
      rw [List.countP_cons, List.zip_cons_cons, List.countP_cons, List.countP_cons,
        List.countP_cons, ih rem c]
      by_cases hgc : g = c <;> (simp [hgc]; try omega)
    · rw [if_neg hga]
      by_cases hrem : rem g > 0
      · rw [if_pos hrem]
        rw [List.countP_cons, List.zip_cons_cons, List.countP_cons, List.countP_cons,
          List.countP_cons, ih (decrBudget rem g) c]
        by_cases hgc : g = c <;> (simp [hgc]; try omega)
      · rw [if_neg hrem]
        rw [List.countP_cons, List.zip_cons_cons, List.countP_cons, List.countP_cons,
          List.countP_cons, ih rem c]
        by_cases hgc : g = c <;> (simp [hgc]; try omega)

/-- The guess/feedback zip is the (guess,answer)-pair/feedback zip with the
answer letters projected away. -/
theorem zip_guess_feedback (guess : Word) :
    ∀ (answer : Word) (rem : Char → Nat),
      guess.zip (mark_pairs rem (guess.zip answer)) =
        ((guess.zip answer).zip (mark_pairs rem (guess.zip answer))).map
          (fun q => (q.1.1, q.2)) := by
  induction guess with
  | nil => intro answer rem; rfl
  | cons g gs ih =>
    intro answer rem
    cases answer with
    | nil => rfl
    | cons a as =>
      rw [List.zip_cons_cons]
      unfold mark_pairs
      by_cases hga : g = a
      · rw [if_pos hga]
        simp only [List.zip_cons_cons, List.map_cons]
        exact congrArg (List.cons _) (ih as rem)
      · rw [if_neg hga]
        by_cases hrem : rem g > 0
        · rw [if_pos hrem]
          simp only [List.zip_cons_cons, List.map_cons]
          exact congrArg (List.cons _) (ih as (decrBudget rem g))
        · rw [if_neg hrem]
          simp only [List.zip_cons_cons, List.map_cons]
          exact congrArg (List.cons _) (ih as rem)

/-- Answer letters in the zipped range are no more numerous than in the
whole answer. -/
theorem snd_countP_le_count (guess : Word) :
    ∀ (answer : Word) (c : Char),
      (guess.zip answer).countP (fun p => p.2 == c) ≤ answer.count c := by
  induction guess with
  | nil => intro answer c; simp
  | cons g gs ih =>
    intro answer c
    cases answer with
    | nil => simp
    | cons a as =>
      rw [List.zip_cons_cons, List.countP_cons, List.count_cons]
      have := ih as c
      by_cases hac : a = c <;> simp [hac] <;> omega

/-- With equal lengths the zip covers both words exactly. -/
theorem zip_countP_counts (guess : Word) :
    ∀ (answer : Word) (c : Char), answer.length = guess.length →
      (guess.zip answer).countP (fun p => p.1 == c) = guess.count c ∧
      (guess.zip answer).countP (fun p => p.2 == c) = answer.count c := by
  induction guess with
  | nil =>
    intro answer c hlen
    rw [List.length_nil, List.length_eq_zero] at hlen
    subst hlen
    simp
  | cons g gs ih =>
    intro answer c hlen
    cases answer with
    | nil => simp at hlen
    | cons a as =>
      have hlen' : as.length = gs.length := by simpa using hlen
      obtain ⟨ih1, ih2⟩ := ih as c hlen'
      constructor
      · rw [List.zip_cons_cons, List.countP_cons, List.count_cons, ih1]
      · rw [List.zip_cons_cons, List.countP_cons, List.count_cons, ih2]

/-- The answer-letter count inside the zip splits into exact matches plus
the misplaced-marking budget. -/
theorem snd_countP_split (ps : List (Char × Char)) (c : Char) :
    ps.countP (fun p => p.2 == c) =
      ps.countP (fun p => p.1 == c && p.1 == p.2) + unmatchedCount ps c := by
  rw [countP_split_by ps (fun p => p.2 == c) (fun p => p.1 == p.2)]
  have h1 : ps.countP (fun p => (p.2 == c) && (p.1 == p.2)) =
      ps.countP (fun p => p.1 == c && p.1 == p.2) := by
    refine countP_congr_mem ?_
    intro p _
    by_cases hm : p.1 = p.2
    · rw [hm]
    · have hb : (p.1 == p.2) = false := by simp [hm]
      rw [hb, Bool.and_false, Bool.and_false]
  have h2 : ps.countP (fun p => (p.2 == c) && !(p.1 == p.2)) = unmatchedCount ps c := by
    unfold unmatchedCount
    rw [List.countP_filter]
    refine countP_congr_mem ?_
    intro p _
    by_cases hm : p.1 = p.2 <;> simp [hm]
  rw [h1, h2]

/-- F1: the per-round correct-ish count of a letter under rules-following
feedback never exceeds the letter's occurrence count in the true answer. -/
theorem correctish_le_answer_count (guess answer : Word) (c : Char) :
    correct_letter_counts guess (wordleFeedback guess answer) c ≤ answer.count c := by
  unfold correct_letter_counts wordleFeedback
  rw [zip_guess_feedback guess answer (unmatchedCount (guess.zip answer)), List.countP_map]
  have hsplit : ((guess.zip answer).zip
        (mark_pairs (unmatchedCount (guess.zip answer)) (guess.zip answer))).countP
      ((fun p => p.1 == c && (p.2 == GuessState.MISPLACED || p.2 == GuessState.CORRECT)) ∘
        (fun q => (q.1.1, q.2))) =
      ((guess.zip answer).zip
        (mark_pairs (unmatchedCount (guess.zip answer)) (guess.zip answer))).countP
        (fun q => q.1.1 == c && q.2 == GuessState.MISPLACED) +
      ((guess.zip answer).zip
        (mark_pairs (unmatchedCount (guess.zip answer)) (guess.zip answer))).countP
        (fun q => q.1.1 == c && q.2 == GuessState.CORRECT) := by
    rw [show ((fun p => p.1 == c && (p.2 == GuessState.MISPLACED || p.2 == GuessState.CORRECT)) ∘
        (fun q : (Char × Char) × GuessState => (q.1.1, q.2))) =
        (fun q : (Char × Char) × GuessState =>
          (q.1.1 == c && q.2 == GuessState.MISPLACED) ||
          (q.1.1 == c && q.2 == GuessState.CORRECT)) from funext fun q => by
      simp [Function.comp, Bool.and_or_distrib_left]]
    refine countP_or_disjoint _ _ _ ?_
    rintro x - ⟨h1, h2⟩
    simp only [Bool.and_eq_true, beq_iff_eq] at h1 h2
    rw [h1.2] at h2
    cases h2.2
  rw [hsplit]
  calc ((guess.zip answer).zip
        (mark_pairs (unmatchedCount (guess.zip answer)) (guess.zip answer))).countP
          (fun q => q.1.1 == c && q.2 == GuessState.MISPLACED) +
      ((guess.zip answer).zip
        (mark_pairs (unmatchedCount (guess.zip answer)) (guess.zip answer))).countP
          (fun q => q.1.1 == c && q.2 == GuessState.CORRECT) ≤
      unmatchedCount (guess.zip answer) c +
        (guess.zip answer).countP (fun p => p.1 == c && p.1 == p.2) := by
        have h1 := mis_count_le_budget (guess.zip answer) (unmatchedCount (guess.zip answer)) c
        have h2 := cor_count_eq_matched (guess.zip answer) (unmatchedCount (guess.zip answer)) c
        omega
    _ = (guess.zip answer).countP (fun p => p.2 == c) := by
        rw [snd_countP_split]
        omega
    _ ≤ answer.count c := snd_countP_le_count guess answer c

/-- F2: when some occurrence of a letter is marked `INCORRECT` under
rules-following feedback (equal lengths), the answer's occurrence count is
at most the guess's occurrence count minus the incorrect count. -/
theorem answer_count_le_max_update (guess answer : Word) (c : Char)
    (hlen : answer.length = guess.length)
    (hic : incorrect_letter_counts guess (wordleFeedback guess answer) c ≠ 0) :
    answer.count c ≤
      guess.count c - incorrect_letter_counts guess (wordleFeedback guess answer) c := by
  have hconv : incorrect_letter_counts guess (wordleFeedback guess answer) c =
      ((guess.zip answer).zip
        (mark_pairs (unmatchedCount (guess.zip answer)) (guess.zip answer))).countP
        (fun q => q.1.1 == c && q.2 == GuessState.INCORRECT) := by
    unfold incorrect_letter_counts wordleFeedback
    rw [zip_guess_feedback guess answer (unmatchedCount (guess.zip answer)), List.countP_map]
    rfl
  rw [hconv] at hic ⊢
  have hfst := (zip_countP_counts guess answer c hlen).1
  have hsnd := (zip_countP_counts guess answer c hlen).2
  have htot := fst_count_eq_tag_sum (guess.zip answer) (unmatchedCount (guess.zip answer)) c
  have hcor := cor_count_eq_matched (guess.zip answer) (unmatchedCount (guess.zip answer)) c
  have hbud := budget_le_mis_of_inc (guess.zip answer) (unmatchedCount (guess.zip answer)) c
    (by omega)
  have hsplit := snd_countP_split (guess.zip answer) c
  omega

/-- A min-fold only decreases its accumulator. -/
theorem foldl_min_le_init (c : Char) (l : List Word) :
    ∀ init : Nat, l.foldl (fun acc v => min acc (v.count c)) init ≤ init := by
  induction l with
  | nil => intro init; exact le_refl _
  | cons w l ih => intro init; exact le_trans (ih _) (min_le_left _ _)

/-- The min-fold of `find_min_max_letter_repeats` is below every member's
letter count. -/
theorem foldl_min_le (c : Char) (l : List Word) (w : Word) (hw : w ∈ l) :
    ∀ init : Nat, l.foldl (fun acc v => min acc (v.count c)) init ≤ w.count c := by
  induction l with
  | nil => cases hw
  | cons v l ih =>
    intro init
    rcases List.mem_cons.1 hw with h | h
    · subst h
      exact le_trans (foldl_min_le_init c l _) (min_le_right _ _)
    · exact ih h _

/-- A max-fold only increases its accumulator. -/
theorem le_foldl_max_init (c : Char) (l : List Word) :
    ∀ init : Nat, init ≤ l.foldl (fun acc v => max acc (v.count c)) init := by
  induction l with
  | nil => intro init; exact le_refl _
  | cons w l ih => intro init; exact le_trans (le_max_left _ _) (ih _)

/-- The max-fold of `find_min_max_letter_repeats` is above every member's
letter count. -/
theorem le_foldl_max (c : Char) (l : List Word) (w : Word) (hw : w ∈ l) :
    ∀ init : Nat, w.count c ≤ l.foldl (fun acc v => max acc (v.count c)) init := by
  induction l with
  | nil => cases hw
  | cons v l ih =>
    intro init
    rcases List.mem_cons.1 hw with h | h
    · subst h
      exact le_trans (le_max_right _ _) (le_foldl_max_init c l _)
    · exact ih h _

/-- Dictionary members satisfy the initial letter-count bounds. -/
theorem initSolver_consistent (dict : List Word) (n : Nat) (answer : Word)
    (hmem : answer ∈ dict) : SpecConsistent (initSolver dict n) answer := by
  refine ⟨?_, ?_, ?_, ?_⟩
  · intro i letter hi
    have : (List.replicate n (none : Option Char))[i]? = some (some letter) := hi
    rw [List.getElem?_replicate] at this
    split at this
    · cases this
    · cases this
  · intro i letter _
    rfl
  · intro letter _
    exact ⟨foldl_min_le letter dict answer hmem 999, le_foldl_max letter dict answer hmem 0⟩
  · intro letter _
    exact ⟨foldl_min_le letter dict answer hmem 999, le_foldl_max letter dict answer hmem 0⟩

/-- One `process_feedback` round with rules-following feedback preserves
consistency of the true answer with the constraint store. -/
theorem specConsistent_process_feedback (s : SolverState) (guess answer : Word)
    (hlen : answer.length = guess.length)
    (h : SpecConsistent s answer) :
    SpecConsistent (process_feedback s guess (wordleFeedback guess answer)) answer := by
  obtain ⟨h1, h2, h3, h4⟩ := h
  have hbounds : ∀ c : Char,
      (s.letter_counts c).1 ≤ answer.count c ∧ answer.count c ≤ (s.letter_counts c).2 →
      ((process_feedback s guess (wordleFeedback guess answer)).letter_counts c).1 ≤
          answer.count c ∧
        answer.count c ≤
          ((process_feedback s guess (wordleFeedback guess answer)).letter_counts c).2 := by
    intro c hc
    rw [process_feedback_letter_counts]
    dsimp only
    constructor
    · split
      · exact max_le (correctish_le_answer_count guess answer c) hc.1
      · exact hc.1
    · split
      · next hic => exact le_min (answer_count_le_max_update guess answer c hlen hic) hc.2
      · exact hc.2
  have hG : ∀ (k : Nat) (c : Char),
      (guess.zip (wordleFeedback guess answer))[k]? = some (c, GuessState.CORRECT) →
      answer[0 + k]? = some c := by
    intro k c hk
    simpa using wordleFeedback_correct_sound guess answer k c hk
  have hG' : ∀ (k : Nat) (c : Char),
      ((guess.zip (wordleFeedback guess answer))[k]? = some (c, GuessState.INCORRECT) ∨
       (guess.zip (wordleFeedback guess answer))[k]? = some (c, GuessState.MISPLACED)) →
      answer[0 + k]? ≠ some c := by
    intro k c hk
    simpa using wordleFeedback_not_correct_sound guess answer k c hk
  refine ⟨?_, ?_, ?_, ?_⟩
  · intro i letter hi
    rw [(process_feedback_positional s guess (wordleFeedback guess answer)).2] at hi
    exact scan_positions_correct_sound answer (guess.zip (wordleFeedback guess answer)) 0
      s.misplaced_letters s.correct_letters h1 hG i letter hi
  · intro i letter hi
    rw [(process_feedback_positional s guess (wordleFeedback guess answer)).1]
    exact scan_positions_mis_sound answer (guess.zip (wordleFeedback guess answer)) 0
      s.misplaced_letters s.correct_letters h2 hG' i letter hi
  · intro letter hl
    exact hbounds letter (h3 letter hl)
  · intro letter hl
    exact hbounds letter (h4 letter hl)

/-- A full round (feedback ingestion then filtering) keeps the true answer
in the candidate set and keeps the store consistent with it. -/
theorem round_preserves (s : SolverState) (answer guess : Word)
    (hlen : answer.length = guess.length)
    (hmem : answer ∈ s.words) (hcons : SpecConsistent s answer) :
    answer ∈ (filter_words (process_feedback s guess (wordleFeedback guess answer))).words ∧
      SpecConsistent (filter_words (process_feedback s guess (wordleFeedback guess answer)))
        answer := by
  have hcons' := specConsistent_process_feedback s guess answer hlen hcons
  have hmem' : answer ∈ (process_feedback s guess (wordleFeedback guess answer)).words := by
    rw [process_feedback_words]
    exact hmem
  constructor
  · rw [mem_filter_words]
    exact ⟨hmem', (keepWord_iff_specConsistent _ _).2 hcons'⟩
  · exact hcons'

/-- Induction over all rounds: the true answer survives every
`process_feedback`/`filter_words` pair. -/
theorem playRounds_keeps_answer (answer : Word) (guesses : List Word) :
    ∀ s : SolverState,
      (∀ g ∈ guesses, answer.length = g.length) →
      answer ∈ s.words → SpecConsistent s answer →
      answer ∈ (playRounds answer s guesses).words := by
  induction guesses with
  | nil => intro s _ hmem _; exact hmem
  | cons g gs ih =>
    intro s hg hmem hcons
    have h := round_preserves s answer g (hg g (List.mem_cons_self _ _)) hmem hcons
    exact ih _ (fun g' hg' => hg g' (List.mem_cons_of_mem _ hg')) h.1 h.2

/-!
## The claims
-/

/-- C2: for every candidate set and constraint store state, `filter_words`
retains exactly the words satisfying the four conditions: agreement with
every set `correct_letters` entry, no forbidden letter at any position,
every letter occurring in the word within its count bounds, and every
alphabet letter (absent ones counting 0) within its count bounds. -/
theorem filter_words_retains_exactly (s : SolverState) (w : Word) :
    w ∈ (filter_words s).words ↔
      w ∈ s.words ∧ SpecCorrect s w ∧ SpecAllowedPositions s w ∧
        SpecWordBounds s w ∧ SpecAlphabetBounds s w := by
  rw [mem_filter_words, keepWord_iff_specConsistent]
  exact Iff.rfl

/-- C4: the output of `filter_words` is a subset of its input and its
cardinality never grows. -/
theorem filter_words_monotone_shrink (s : SolverState) :
    (filter_words s).words ⊆ s.words ∧
      (filter_words s).words.length ≤ s.words.length :=
  ⟨fun _ hw => (List.mem_filter.1 hw).1, List.length_filter_le _ _⟩

/-- C9: filtering an already-filtered candidate set with the same
constraint store is a no-op. -/
theorem filter_words_idempotent (s : SolverState) :
    filter_words (filter_words s) = filter_words s := by
  cases s with
  | mk wl ws cl mis lc =>
    show SolverState.mk wl
        (List.filter (keepWord ⟨wl, ws, cl, mis, lc⟩)
          (List.filter (keepWord ⟨wl, ws, cl, mis, lc⟩) ws)) cl mis lc =
      SolverState.mk wl (List.filter (keepWord ⟨wl, ws, cl, mis, lc⟩) ws) cl mis lc
    rw [List.filter_filter]
    exact congrArg (fun l => SolverState.mk wl l cl mis lc)
      (List.filter_congr fun x _ => Bool.and_self _)

/-- C5: letter count bounds only tighten — both through `process_feedback`
and through the solve loop's re-tightening against statistics recomputed
over the new candidate set, the minimum never decreases and the maximum
never increases. -/
theorem bounds_only_tighten (s : SolverState) (guess : Word) (feedback : List GuessState)
    (words : List Word) (lc : Char → Nat × Nat) (letter : Char) :
    ((s.letter_counts letter).1 ≤ ((process_feedback s guess feedback).letter_counts letter).1 ∧
      ((process_feedback s guess feedback).letter_counts letter).2 ≤
        (s.letter_counts letter).2) ∧
    ((lc letter).1 ≤ (retighten_counts words lc letter).1 ∧
      (retighten_counts words lc letter).2 ≤ (lc letter).2) := by
  refine ⟨⟨?_, ?_⟩, le_max_left _ _, min_le_left _ _⟩
  · rw [process_feedback_letter_counts]
    dsimp only
    split
    · exact le_max_right _ _
    · exact le_refl _
  · rw [process_feedback_letter_counts]
    dsimp only
    split
    · exact min_le_right _ _
    · exact le_refl _

/-- The code's zip-based correct-ish counter agrees with the spec's
position-indexed one when guess and feedback have the same length. -/
theorem correct_letter_counts_eq_positional {guess : Word} {feedback : List GuessState}
    (hlen : feedback.length = guess.length) (letter : Char) :
    correct_letter_counts guess feedback letter =
      positional_correctish guess feedback letter := by
  unfold correct_letter_counts positional_correctish
  rw [countP_zip_eq_range _ _ (fun a b =>
    a == letter && (b == GuessState.MISPLACED || b == GuessState.CORRECT)) hlen]
  refine countP_congr_mem ?_
  intro i hi
  rw [List.mem_range] at hi
  rw [List.getElem?_eq_getElem hi,
    List.getElem?_eq_getElem (show i < feedback.length by rw [hlen]; exact hi)]
  rfl

/-- The code's zip-based incorrect counter agrees with the spec's
position-indexed one when guess and feedback have the same length. -/
theorem incorrect_letter_counts_eq_positional {guess : Word} {feedback : List GuessState}
    (hlen : feedback.length = guess.length) (letter : Char) :
    incorrect_letter_counts guess feedback letter =
      positional_incorrect guess feedback letter := by
  unfold incorrect_letter_counts positional_incorrect
  rw [countP_zip_eq_range _ _ (fun a b =>
    a == letter && b == GuessState.INCORRECT) hlen]
  refine countP_congr_mem ?_
  intro i hi
  rw [List.mem_range] at hi
  rw [List.getElem?_eq_getElem hi,
    List.getElem?_eq_getElem (show i < feedback.length by rw [hlen]; exact hi)]
  rfl

/-- C3: `process_feedback` accumulates the per-round counters over all
positions first, and only then applies them once per letter: a nonzero
correct-ish count `C` raises the minimum bound to `max(current min, C)`,
and a nonzero incorrect count `K` lowers the maximum bound to
`min(current max, occurrences of the letter in the guess - K)` — covering
in particular letters occurring multiple times with mixed feedback. -/
theorem process_feedback_counter_semantics (s : SolverState) (guess : Word)
    (feedback : List GuessState) (hlen : feedback.length = guess.length) (letter : Char) :
    ((process_feedback s guess feedback).letter_counts letter).1 =
      (if positional_correctish guess feedback letter ≠ 0
       then max (s.letter_counts letter).1 (positional_correctish guess feedback letter)
       else (s.letter_counts letter).1) ∧
    ((process_feedback s guess feedback).letter_counts letter).2 =
      (if positional_incorrect guess feedback letter ≠ 0
       then min (s.letter_counts letter).2
         (guess.count letter - positional_incorrect guess feedback letter)
       else (s.letter_counts letter).2) := by
  rw [process_feedback_letter_counts, correct_letter_counts_eq_positional hlen,
    incorrect_letter_counts_eq_positional hlen]
  constructor
  · dsimp only
    split
    · exact Nat.max_comm _ _
    · rfl
  · dsimp only
    split
    · exact Nat.min_comm _ _
    · rfl

/-- Witness for C3: a round whose guess holds the letter `a` twice with
mixed feedback (`Correct` at offset 0, `Incorrect` at offset 2). -/
theorem process_feedback_counter_semantics_witness :
    (([GuessState.CORRECT, GuessState.INCORRECT, GuessState.INCORRECT] :
        List GuessState).length = (['a', 'b', 'a'] : Word).length) ∧
    (((process_feedback ⟨3, [], [none, none, none], fun _ _ => false, fun _ => (0, 2)⟩
          ['a', 'b', 'a']
          [GuessState.CORRECT, GuessState.INCORRECT, GuessState.INCORRECT]).letter_counts
        'a').1 =
      (if positional_correctish ['a', 'b', 'a']
            [GuessState.CORRECT, GuessState.INCORRECT, GuessState.INCORRECT] 'a' ≠ 0
       then max ((fun (_ : Char) => ((0 : Nat), (2 : Nat))) 'a').1
         (positional_correctish ['a', 'b', 'a']
           [GuessState.CORRECT, GuessState.INCORRECT, GuessState.INCORRECT] 'a')
       else ((fun (_ : Char) => ((0 : Nat), (2 : Nat))) 'a').1) ∧
      ((process_feedback ⟨3, [], [none, none, none], fun _ _ => false, fun _ => (0, 2)⟩
          ['a', 'b', 'a']
          [GuessState.CORRECT, GuessState.INCORRECT, GuessState.INCORRECT]).letter_counts
        'a').2 =
      (if positional_incorrect ['a', 'b', 'a']
            [GuessState.CORRECT, GuessState.INCORRECT, GuessState.INCORRECT] 'a' ≠ 0
       then min ((fun (_ : Char) => ((0 : Nat), (2 : Nat))) 'a').2
         ((['a', 'b', 'a'] : Word).count 'a' -
           positional_incorrect ['a', 'b', 'a']
             [GuessState.CORRECT, GuessState.INCORRECT, GuessState.INCORRECT] 'a')
       else ((fun (_ : Char) => ((0 : Nat), (2 : Nat))) 'a').2)) :=
  ⟨rfl, process_feedback_counter_semantics _ _ _ rfl 'a'⟩

/-- C10: for a non-empty, duplicate-free word set, `letter_word_counts`
(which pops one element and re-adds it) and hence `find_suggestions` leave
the word set equal to its value before the call. -/
theorem find_suggestions_frame (words : List Word) (num_suggestions : Nat)
    (hne : words ≠ []) (hnd : words.Nodup) :
    (letter_word_counts words).1 = words ∧
      (find_suggestions words num_suggestions).1 = words := by
  cases words with
  | nil => exact absurd rfl hne
  | cons w rest =>
    have hw : w ∉ rest := (List.nodup_cons.1 hnd).1
    have h1 : (letter_word_counts (w :: rest)).1 = w :: rest := by
      unfold letter_word_counts
      simp [hw]
    refine ⟨h1, ?_⟩
    unfold find_suggestions
    exact h1

/-- Witness for C10 on a concrete two-word set. -/
theorem find_suggestions_frame_witness :
    (letter_word_counts [['a', 'b'], ['b', 'a']]).1 = [['a', 'b'], ['b', 'a']] ∧
      (find_suggestions [['a', 'b'], ['b', 'a']] 3).1 = [['a', 'b'], ['b', 'a']] :=
  find_suggestions_frame [['a', 'b'], ['b', 'a']] 3 (by decide) (by decide)

/-- Offering every suggestion to a provider that declines them all yields
no accepted feedback. -/
theorem offer_loop_all_declined (provider : Word → Option (List GuessState)) :
    ∀ l : List Word, (∀ w ∈ l, provider w = none) → offer_loop provider l = none := by
  intro l h
  induction l with
  | nil => rfl
  | cons w rest ih =>
    unfold offer_loop
    rw [h w (List.mem_cons_self _ _)]
    exact ih (fun v hv => h v (List.mem_cons_of_mem _ hv))

/-- C8: terminal behavior of the solve loop — a singleton candidate set
returns that word (SOLVED); an empty candidate set returns the no-solution
result (EXHAUSTED) rather than raising; and a round in which the provider
declines every offered suggestion produces the fatal "no suggestion
accepted" outcome instead of looping. -/
theorem run_until_solved_terminal (provider : Nat → Word → Option (List GuessState))
    (fuel round : Nat) (s : SolverState) :
    (∀ w : Word, s.words = [w] →
      run_until_solved provider fuel round s = RunResult.solved w) ∧
    (s.words = [] → run_until_solved provider fuel round s = RunResult.exhausted) ∧
    (1 < s.words.length →
      (∀ w ∈ (find_suggestions s.words 10).2.map Prod.snd, provider round w = none) →
      0 < fuel →
      run_until_solved provider fuel round s = RunResult.noSuggestionAccepted) := by
  refine ⟨?_, ?_, ?_⟩
  · intro w hw
    cases fuel <;>
      simp [run_until_solved, hw, terminal_result]
  · intro hw
    cases fuel <;>
      simp [run_until_solved, hw, terminal_result]
  · intro hlen hprov hfuel
    cases fuel with
    | zero => exact absurd hfuel (by simp)
    | succ f =>
      show (if s.words.length > 1 then _ else _) = _
      rw [if_pos hlen]
      dsimp only
      rw [offer_loop_all_declined _ _ hprov]

/-- Witness for C8: the three terminal behaviors at concrete states. -/
theorem run_until_solved_terminal_witness :
    run_until_solved (fun _ _ => none) 1 0
        ⟨2, [['a', 'b']], [none, none], fun _ _ => false, fun _ => (0, 2)⟩ =
      RunResult.solved ['a', 'b'] ∧
    run_until_solved (fun _ _ => none) 1 0
        ⟨2, [], [none, none], fun _ _ => false, fun _ => (0, 2)⟩ =
      RunResult.exhausted ∧
    run_until_solved (fun _ _ => none) 1 0
        ⟨2, [['a', 'b'], ['b', 'a'], ['a', 'a']], [none, none], fun _ _ => false,
          fun _ => (0, 2)⟩ =
      RunResult.noSuggestionAccepted :=
  ⟨(run_until_solved_terminal (fun _ _ => none) 1 0 _).1 ['a', 'b'] rfl,
   (run_until_solved_terminal (fun _ _ => none) 1 0 _).2.1 rfl,
   (run_until_solved_terminal (fun _ _ => none) 1 0 _).2.2 (by decide)
     (fun _ _ => rfl) (by decide)⟩

/-- Counterexample to C6 as stated: with `correct_letters[0]` already set
to `a`, a later `process_feedback` round (arbitrary feedback is allowed by
the claim) marking position 0 `CORRECT` for the letter `b` changes the
stored letter to `b`. -/
theorem correct_letters_overwritten_counterexample :
    ((⟨1, [], [some 'a'], fun _ _ => false, fun _ => (0, 1)⟩ :
        SolverState).correct_letters[0]? = some (some 'a')) ∧
    ((process_feedback ⟨1, [], [some 'a'], fun _ _ => false, fun _ => (0, 1)⟩
        ['b'] [GuessState.CORRECT]).correct_letters[0]? = some (some 'b')) ∧
    ('b' : Char) ≠ 'a' := by
  refine ⟨rfl, ?_, by decide⟩
  rfl

/-- C6 amended: a set `correct_letters` entry is never *unset* by any
later `process_feedback` round, whatever the feedback; and when the
round's feedback is generated under the rules of the puzzle from a true
answer consistent with the already-set entries, the entry keeps exactly
its letter.  (As stated, with arbitrary subsequent feedback, the letter
can change — see the counterexample.) -/
theorem correct_letters_persist (s : SolverState) (i : Nat) (letter : Char)
    (guess : Word) (feedback : List GuessState)
    (hset : s.correct_letters[i]? = some (some letter)) :
    (∃ l : Char, (process_feedback s guess feedback).correct_letters[i]? = some (some l)) ∧
    (∀ answer : Word, SpecCorrect s answer → feedback = wordleFeedback guess answer →
      (process_feedback s guess feedback).correct_letters[i]? = some (some letter)) := by
  have hpos := (process_feedback_positional s guess feedback).2
  constructor
  · rcases scan_positions_not_unset (guess.zip feedback) 0 s.misplaced_letters
        s.correct_letters i with h | h
    · exact ⟨letter, by rw [hpos, h, hset]⟩
    · obtain ⟨c, hc⟩ := h
      exact ⟨c, by rw [hpos]; exact hc⟩
  · intro answer hans hfb
    rcases scan_positions_not_unset (guess.zip feedback) 0 s.misplaced_letters
        s.correct_letters i with h | h
    · rw [hpos, h, hset]
    · obtain ⟨c, hc⟩ := h
      subst hfb
      have hsound : answer[i]? = some c := by
        refine scan_positions_correct_sound answer (guess.zip (wordleFeedback guess answer)) 0
          s.misplaced_letters s.correct_letters hans ?_ i c hc
        intro k c' hk
        simpa using wordleFeedback_correct_sound guess answer k c' hk
      have hletter : answer[i]? = some letter := hans i letter hset
      rw [hsound] at hletter
      injection hletter with h'
      rw [hpos, ← h']
      exact hc

/-- Witness for the amended C6 at a concrete consistent round. -/
theorem correct_letters_persist_witness :
    (∃ l : Char, (process_feedback ⟨1, [], [some 'a'], fun _ _ => false, fun _ => (0, 1)⟩
        ['a'] (wordleFeedback ['a'] ['a'])).correct_letters[0]? = some (some l)) ∧
    (process_feedback ⟨1, [], [some 'a'], fun _ _ => false, fun _ => (0, 1)⟩
        ['a'] (wordleFeedback ['a'] ['a'])).correct_letters[0]? = some (some 'a') := by
  have h := correct_letters_persist ⟨1, [], [some 'a'], fun _ _ => false, fun _ => (0, 1)⟩ 0 'a'
      ['a'] (wordleFeedback ['a'] ['a']) rfl
  refine ⟨h.1, h.2 ['a'] ?_ rfl⟩
  intro j l hj
  match j with
  | 0 =>
    simp at hj ⊢
    exact hj
  | j + 1 => simp at hj

/-- Counting letter-tagged feedback over a zip whose guess segment does
not contain the letter yields zero. -/
theorem countP_zip_fst_not_mem {u : Word} {fu : List GuessState} {c : Char}
    (hu : c ∉ u) {q : Char × GuessState → Bool}
    (hq : ∀ p : Char × GuessState, q p = true → p.1 = c) :
    (u.zip fu).countP q = 0 := by
  rw [List.countP_eq_zero]
  intro p hp hcontra
  exact hu (hq p hcontra ▸ (List.of_mem_zip hp).1)

/-- Counterexample to C7 as stated: when the letter's current maximum
bound is 0, a double-occurrence round with one `Correct` and one
`Incorrect` mark leaves the maximum bound at 0, not at (occurrences in
guess − incorrect count) = 1. -/
theorem double_letter_max_clamped_counterexample :
    ((['a', 'b', 'a'] : Word).count 'a' = 2) ∧
    (((process_feedback ⟨3, [], [none, none, none], fun _ _ => false, fun _ => (0, 0)⟩
        ['a', 'b', 'a']
        [GuessState.CORRECT, GuessState.INCORRECT, GuessState.INCORRECT]).letter_counts
      'a').2 = 0) ∧
    (0 : Nat) ≠ (['a', 'b', 'a'] : Word).count 'a' - 1 := by
  refine ⟨by decide, by decide, by decide⟩

/-- C7 amended: for a guess holding a letter exactly twice (decomposed as
`u ++ c :: (v ++ c :: w)` with `c` in none of `u`, `v`, `w`), if the round
marks one occurrence `Correct` and the other `Incorrect`, then — provided
the letter's current maximum bound is at least 1 — the new maximum bound
equals the guess occurrence count minus the incorrect count, i.e. 1, and
the new minimum bound is at least 1, pinning the letter's true count to
exactly 1. -/
theorem double_letter_pins_count (s : SolverState) (u v w : Word) (c : Char)
    (fu fv fw : List GuessState) (f1 f2 : GuessState)
    (hu : c ∉ u) (hv : c ∉ v) (hw : c ∉ w)
    (hfu : fu.length = u.length) (hfv : fv.length = v.length)
    (hf : (f1 = GuessState.CORRECT ∧ f2 = GuessState.INCORRECT) ∨
          (f1 = GuessState.INCORRECT ∧ f2 = GuessState.CORRECT))
    (hmax : 1 ≤ (s.letter_counts c).2) :
    ((process_feedback s (u ++ c :: (v ++ c :: w))
        (fu ++ f1 :: (fv ++ f2 :: fw))).letter_counts c).2 =
      (u ++ c :: (v ++ c :: w)).count c - 1 ∧
    ((process_feedback s (u ++ c :: (v ++ c :: w))
        (fu ++ f1 :: (fv ++ f2 :: fw))).letter_counts c).2 = 1 ∧
    1 ≤ ((process_feedback s (u ++ c :: (v ++ c :: w))
        (fu ++ f1 :: (fv ++ f2 :: fw))).letter_counts c).1 := by
  have hzip : (u ++ c :: (v ++ c :: w)).zip (fu ++ f1 :: (fv ++ f2 :: fw)) =
      u.zip fu ++ (c, f1) :: (v.zip fv ++ (c, f2) :: w.zip fw) := by
    rw [List.zip_append hfu.symm, List.zip_cons_cons, List.zip_append hfv.symm,
      List.zip_cons_cons]
  have hcount : (u ++ c :: (v ++ c :: w)).count c = 2 := by
    rw [List.count_append, List.count_cons, List.count_append, List.count_cons,
      List.count_eq_zero.2 hu, List.count_eq_zero.2 hv, List.count_eq_zero.2 hw]
    simp
  have hqc : ∀ p : Char × GuessState,
      (p.1 == c && (p.2 == GuessState.MISPLACED || p.2 == GuessState.CORRECT)) = true →
      p.1 = c := by
    intro p hp
    rw [Bool.and_eq_true, beq_iff_eq] at hp
    exact hp.1
  have hqi : ∀ p : Char × GuessState,
      (p.1 == c && p.2 == GuessState.INCORRECT) = true → p.1 = c := by
    intro p hp
    rw [Bool.and_eq_true, beq_iff_eq] at hp
    exact hp.1
  have hcc : correct_letter_counts (u ++ c :: (v ++ c :: w)) (fu ++ f1 :: (fv ++ f2 :: fw)) c = 1 := by
    unfold correct_letter_counts
    rw [hzip, List.countP_append, List.countP_cons, List.countP_append, List.countP_cons,
      countP_zip_fst_not_mem hu hqc, countP_zip_fst_not_mem hv hqc,
      countP_zip_fst_not_mem hw hqc]
    rcases hf with ⟨h1, h2⟩ | ⟨h1, h2⟩ <;> subst h1 <;> subst h2 <;> simp
  have hic : incorrect_letter_counts (u ++ c :: (v ++ c :: w)) (fu ++ f1 :: (fv ++ f2 :: fw)) c = 1 := by
    unfold incorrect_letter_counts
    rw [hzip, List.countP_append, List.countP_cons, List.countP_append, List.countP_cons,
      countP_zip_fst_not_mem hu hqi, countP_zip_fst_not_mem hv hqi,
      countP_zip_fst_not_mem hw hqi]
    rcases hf with ⟨h1, h2⟩ | ⟨h1, h2⟩ <;> subst h1 <;> subst h2 <;> simp
  rw [process_feedback_letter_counts]
  dsimp only
  rw [hcc, hic, hcount]
  refine ⟨?_, ?_, ?_⟩
  · rw [if_pos (by decide)]
    exact Nat.min_eq_left hmax
  · rw [if_pos (by decide)]
    exact Nat.min_eq_left hmax
  · rw [if_pos (by decide)]
    exact le_max_left _ _

/-- Witness for the amended C7: guess `aba`, `Correct` on the first `a`,
`Incorrect` on the second, starting maximum bound 2. -/
theorem double_letter_pins_count_witness :
    ((process_feedback ⟨3, [], [none, none, none], fun _ _ => false, fun _ => (0, 2)⟩
        ([] ++ 'a' :: (['b'] ++ 'a' :: []))
        ([] ++ GuessState.CORRECT :: ([GuessState.INCORRECT] ++ GuessState.INCORRECT ::
          []))).letter_counts 'a').2 =
      (([] ++ 'a' :: (['b'] ++ 'a' :: [])) : Word).count 'a' - 1 ∧
    ((process_feedback ⟨3, [], [none, none, none], fun _ _ => false, fun _ => (0, 2)⟩
        ([] ++ 'a' :: (['b'] ++ 'a' :: []))
        ([] ++ GuessState.CORRECT :: ([GuessState.INCORRECT] ++ GuessState.INCORRECT ::
          []))).letter_counts 'a').2 = 1 ∧
    1 ≤ ((process_feedback ⟨3, [], [none, none, none], fun _ _ => false, fun _ => (0, 2)⟩
        ([] ++ 'a' :: (['b'] ++ 'a' :: []))
        ([] ++ GuessState.CORRECT :: ([GuessState.INCORRECT] ++ GuessState.INCORRECT ::
          []))).letter_counts 'a').1 :=
  double_letter_pins_count _ [] ['b'] [] 'a' [] [GuessState.INCORRECT] []
    GuessState.CORRECT GuessState.INCORRECT (by decide) (by decide) (by decide)
    rfl rfl (Or.inl ⟨rfl, rfl⟩) (by decide)

/-- C1: for every initial dictionary containing the true answer and every
sequence of word-length guesses whose feedback is generated by comparing
the guess against the true answer under the rules of the puzzle, the true
answer remains in the candidate set after every `process_feedback`
followed by `filter_words`: filtering never eliminates the true answer. -/
theorem true_answer_survives (dict : List Word) (n : Nat) (answer : Word)
    (guesses : List Word) (hmem : answer ∈ dict) (hans : answer.length = n)
    (hg : ∀ g ∈ guesses, g.length = n) :
    answer ∈ (playRounds answer (initSolver dict n) guesses).words :=
  playRounds_keeps_answer answer guesses (initSolver dict n)
    (fun g hgm => by rw [hans, hg g hgm]) hmem (initSolver_consistent dict n answer hmem)

/-- Witness for C1: a two-word dictionary, answer `ab`, one round guessing
`ca`. -/
theorem true_answer_survives_witness :
    (['a', 'b'] ∈ ([['c', 'a'], ['a', 'b']] : List Word)) ∧
    ['a', 'b'] ∈
      (playRounds ['a', 'b'] (initSolver [['c', 'a'], ['a', 'b']] 2) [['c', 'a']]).words :=
  ⟨by decide,
   true_answer_survives [['c', 'a'], ['a', 'b']] 2 ['a', 'b'] [['c', 'a']]
     (by decide) (by decide) (by decide)⟩

end Wordle
